import Mathlib

/-!
Shallow embedding of `lib/logoot/sequence.js` (Logoot sequence CRDT core).

Data model (mirroring the JS arrays):
  * an ident is a pair `[int, site]`;
  * a position is a list of idents;
  * an atom identifier is a pair `[position, clock]`;
  * an atom is a pair `[atomIdent, value]` (`null` values become `none`);
  * a sequence is a list of atoms.

Site identifiers may be any comparable value, so the comparison functions are
generic over a linearly ordered site type; the generation and sentinel code of
the source uses the numeric literal `0` for the sentinel sites, so those
definitions are specialised to integer sites.
-/

namespace Logoot

/-- `MAX_POS` from the source: the maximum identifier integer. -/
def MAX_POS : Int := 32767

/-- An ident `[int, site]`. -/
abbrev Ident (σ : Type) := Int × σ

/-- A position: a list of idents. -/
abbrev Position (σ : Type) := List (Ident σ)

/-- An atom identifier `[position, clock]`. -/
abbrev AtomIdent (σ : Type) := Position σ × Int

/-- An atom `[atomIdent, value]`; the JS `null` value is `none`. -/
abbrev Atom (σ α : Type) := AtomIdent σ × Option α

/-- A sequence of atoms. -/
abbrev Sequence (σ α : Type) := List (Atom σ α)

/-- `compareIdents` from the source: compare the integers, then the sites. -/
def compareIdents {σ : Type} [LinearOrder σ] (a b : Ident σ) : Int :=
  if a.1 > b.1 then 1
  else if a.1 < b.1 then -1
  else if a.2 > b.2 then 1
  else if a.2 < b.2 then -1
  else 0

/-- `comparePositions` from the source: lexicographic comparison of ident
lists, an empty list sorting below any non-empty list. -/
def comparePositions {σ : Type} [LinearOrder σ] : Position σ → Position σ → Int
  | [], [] => 0
  | [], _ :: _ => -1
  | _ :: _, [] => 1
  | a :: as', b :: bs' =>
    if compareIdents a b = 1 then 1
    else if compareIdents a b = -1 then -1
    else comparePositions as' bs'

/-- `compareAtomIdents` from the source: compare the positions only; the
clock component is never consulted. -/
def compareAtomIdents {σ : Type} [LinearOrder σ] (a b : AtomIdent σ) : Int :=
  comparePositions a.1 b.1

/-- `ABS_MIN_ATOM_IDENT = [[[0, 0]], 0]`. -/
def ABS_MIN_ATOM_IDENT : AtomIdent Int := ([(0, 0)], 0)

/-- `ABS_MAX_ATOM_IDENT = [[[MAX_POS, 0]], 1]`. -/
def ABS_MAX_ATOM_IDENT : AtomIdent Int := ([(MAX_POS, 0)], 1)

/-- `emptySequence` from the source: the two sentinel atoms, values `null`. -/
def emptySequence (α : Type) : Sequence Int α :=
  [(ABS_MIN_ATOM_IDENT, none), (ABS_MAX_ATOM_IDENT, none)]

/-- How `insertAtom` can fail: the `throw new Error('Sequence out of order!')`
branch; the crash from reading `sequence[i + 1]` when `next` is `undefined`
(last loop iteration); and the `undefined` return when the loop body never
runs (empty sequence). -/
inductive InsertErr
  | outOfOrder
  | nextUndefined
  | noReturn
deriving DecidableEq, Repr

/-- The scan loop of `insertAtom` over the remaining adjacent pairs.
`seqFull` is the whole sequence (what the JS closure calls `sequence`), `i`
the current index. Mirrors the four-way branch of the source. -/
def insertLoop {σ α : Type} [LinearOrder σ]
    (insertFunc : Sequence σ α → Nat → Atom σ α → Sequence σ α)
    (seqFull : Sequence σ α) (atom : Atom σ α) :
    List (Atom σ α) → Nat → Except InsertErr (Sequence σ α)
  | [], _ => Except.error InsertErr.noReturn
  | [_], _ => Except.error InsertErr.nextUndefined
  | prev :: next :: rest, i =>
    let c0 := comparePositions atom.1.1 prev.1.1
    let c1 := comparePositions atom.1.1 next.1.1
    if c0 = 1 ∧ c1 = -1 then
      Except.ok (insertFunc seqFull (i + 1) atom)
    else if c0 = 1 ∧ c1 = 1 then
      insertLoop insertFunc seqFull atom (next :: rest) (i + 1)
    else if (c0 = -1 ∧ c1 = 1) ∨ (c0 = -1 ∧ c1 = -1) then
      Except.error InsertErr.outOfOrder
    else
      Except.ok seqFull

/-- `insertAtom` from the source: scan the sequence's adjacent pairs from
index 0. -/
def insertAtom {σ α : Type} [LinearOrder σ] (sequence : Sequence σ α)
    (atom : Atom σ α)
    (insertFunc : Sequence σ α → Nat → Atom σ α → Sequence σ α) :
    Except InsertErr (Sequence σ α) :=
  insertLoop insertFunc sequence atom sequence 0

/-- How `genPosition` can fail: the
`throw new Error('"Next" position was less than "previous" position.')`
branch. -/
inductive GenErr
  | orderInversion
deriving DecidableEq, Repr

/-- `genPosition` from the source, with the random draw abstracted as `rnd`
(the result of `randomIntBetween` on the two bounds) and recursion depth
bounded by `fuel` (`none` means the fuel ran out before a base case).
An empty prev position defaults to `min[0] = [[0, 0]]` and an empty next
position to `max[0] = [[MAX_POS, 0]]`, so the effective head of an empty
list is the default ident and the effective tail is empty. -/
def genPositionFuel (rnd : Int → Int → Int) (siteID : Int) :
    Nat → Position Int → Position Int → Option (Except GenErr (Position Int))
  | 0, _, _ => none
  | fuel + 1, p, n =>
    let ph : Ident Int := p.headD (0, 0)
    let nh : Ident Int := n.headD (MAX_POS, 0)
    if compareIdents ph nh = 1 then
      some (Except.error GenErr.orderInversion)
    else if compareIdents ph nh = 0 then
      (genPositionFuel rnd siteID fuel p.tail n.tail).map
        (Except.map (fun rest => ph :: rest))
    else
      if nh.1 - ph.1 > 1 then
        some (Except.ok [(rnd ph.1 nh.1, siteID)])
      else if nh.1 - ph.1 = 1 ∧ siteID > ph.2 then
        some (Except.ok [(ph.1, siteID)])
      else
        (genPositionFuel rnd siteID fuel p.tail n.tail).map
          (Except.map (fun rest => ph :: rest))

/-- `genPosition` run with enough fuel for its recursion depth, which is
bounded by the combined length of the two input positions. -/
def genPosition (rnd : Int → Int → Int) (siteID : Int)
    (prevPos nextPos : Position Int) : Option (Except GenErr (Position Int)) :=
  genPositionFuel rnd siteID (prevPos.length + nextPos.length + 1) prevPos nextPos

/-- `genAtomIdent` from the source: pair the generated position with the
given clock; errors propagate. -/
def genAtomIdent (rnd : Int → Int → Int) (siteID : Int) (clock : Int)
    (prevAtomIdent nextAtomIdent : AtomIdent Int) :
    Option (Except GenErr (AtomIdent Int)) :=
  (genPosition rnd siteID prevAtomIdent.1 nextAtomIdent.1).map
    (Except.map (fun pos => (pos, clock)))

/-- `randomIntBetween` from the source, with the `Math.random()` draw made
explicit as a rational `r` in `[0, 1)`:
`Math.floor(r * (max - (min + 1))) + min + 1`. -/
def randomIntBetween (r : ℚ) (lo hi : Int) : Int :=
  ⌊r * ((hi : ℚ) - ((lo : ℚ) + 1))⌋ + lo + 1

/-- A random generator is valid when, asked for a number between two bounds
with room between them, it returns one strictly between them — which
`randomIntBetween` guarantees for every draw of `Math.random()` in `[0, 1)`. -/
def validRnd (rnd : Int → Int → Int) : Prop :=
  ∀ lo hi : Int, lo + 1 < hi → lo < rnd lo hi ∧ rnd lo hi < hi

/-- Modelled from the spec (§7): `generatePosition` "detects
`prevHead > nextHead` at some recursion depth". This predicate mirrors the
recursion structure of `genPosition` (which levels are reached) but records
only whether a head inversion is detected; it does not depend on the random
draw. `none` means the fuel ran out. -/
def specOrderInversionFuel (siteID : Int) :
    Nat → Position Int → Position Int → Option Bool
  | 0, _, _ => none
  | fuel + 1, p, n =>
    let ph : Ident Int := p.headD (0, 0)
    let nh : Ident Int := n.headD (MAX_POS, 0)
    if compareIdents ph nh = 1 then
      some true
    else if compareIdents ph nh = 0 then
      specOrderInversionFuel siteID fuel p.tail n.tail
    else
      if nh.1 - ph.1 > 1 then
        some false
      else if nh.1 - ph.1 = 1 ∧ siteID > ph.2 then
        some false
      else
        specOrderInversionFuel siteID fuel p.tail n.tail

/-- The spec's head-inversion condition, run with enough fuel. -/
def specOrderInversion (siteID : Int) (prevPos nextPos : Position Int) : Bool :=
  (specOrderInversionFuel siteID (prevPos.length + nextPos.length + 1)
    prevPos nextPos).getD false

/-- A well-formed sequence per the spec's standing invariant: the MIN
sentinel atom first, the MAX sentinel atom last, and atom positions strictly
increasing throughout. -/
def wellFormed {α : Type} (s : Sequence Int α) : Prop :=
  (∃ mid, s = ((ABS_MIN_ATOM_IDENT, none) : Atom Int α) ::
      (mid ++ [((ABS_MAX_ATOM_IDENT, none) : Atom Int α)])) ∧
  List.Chain' (fun x y : Atom Int α => comparePositions x.1.1 y.1.1 = -1) s

/-- A concrete random generator used to evaluate the code at specific
inputs: it returns `lo + 1`, a legitimate draw whenever `lo + 1 < hi`. -/
def rnd0 : Int → Int → Int := fun lo _ => lo + 1

/-- A concrete placement function used to evaluate `insertAtom` at specific
inputs. -/
def f0 : Sequence Int Unit → Nat → Atom Int Unit → Sequence Int Unit :=
  fun s _ a => a :: s

section CompareLemmas

variable {σ : Type} [LinearOrder σ]

lemma cmpI_cases (a b : Ident σ) :
    compareIdents a b = -1 ∨ compareIdents a b = 0 ∨ compareIdents a b = 1 := by
  unfold compareIdents
  split_ifs <;> simp

lemma cmpI_eq_zero_iff (a b : Ident σ) : compareIdents a b = 0 ↔ a = b := by
  unfold compareIdents
  split_ifs with h1 h2 h3 h4
  · constructor
    · intro h; exact absurd h (by decide)
    · intro h; subst h; exact absurd h1 (lt_irrefl _)
  · constructor
    · intro h; exact absurd h (by decide)
    · intro h; subst h; exact absurd h2 (lt_irrefl _)
  · constructor
    · intro h; exact absurd h (by decide)
    · intro h; subst h; exact absurd h3 (lt_irrefl _)
  · constructor
    · intro h; exact absurd h (by decide)
    · intro h; subst h; exact absurd h4 (lt_irrefl _)
  · constructor
    · intro _
      have hi : a.1 = b.1 := le_antisymm (not_lt.mp h1) (not_lt.mp h2)
      have hs : a.2 = b.2 := le_antisymm (not_lt.mp h3) (not_lt.mp h4)
      exact Prod.ext hi hs
    · intro _; rfl

lemma cmpI_neg_iff (a b : Ident σ) :
    compareIdents a b = -1 ↔ (a.1 < b.1 ∨ (a.1 = b.1 ∧ a.2 < b.2)) := by
  unfold compareIdents
  split_ifs with h1 h2 h3 h4
  · refine iff_of_false (by decide) ?_
    rintro (h | ⟨h, _⟩) <;> omega
  · exact iff_of_true rfl (Or.inl h2)
  · have hi : a.1 = b.1 := by omega
    refine iff_of_false (by decide) ?_
    rintro (h | ⟨_, hs⟩)
    · omega
    · exact absurd hs (lt_asymm h3)
  · have hi : a.1 = b.1 := by omega
    exact iff_of_true rfl (Or.inr ⟨hi, h4⟩)
  · have hs : a.2 = b.2 := le_antisymm (not_lt.mp h3) (not_lt.mp h4)
    refine iff_of_false (by decide) ?_
    rintro (h | ⟨_, hs'⟩)
    · omega
    · rw [hs] at hs'
      exact absurd hs' (lt_irrefl _)

lemma cmpI_pos_iff (a b : Ident σ) :
    compareIdents a b = 1 ↔ (b.1 < a.1 ∨ (b.1 = a.1 ∧ b.2 < a.2)) := by
  unfold compareIdents
  split_ifs with h1 h2 h3 h4
  · exact iff_of_true rfl (Or.inl h1)
  · refine iff_of_false (by decide) ?_
    rintro (h | ⟨h, _⟩) <;> omega
  · have hi : b.1 = a.1 := by omega
    exact iff_of_true rfl (Or.inr ⟨hi, h3⟩)
  · refine iff_of_false (by decide) ?_
    rintro (h | ⟨_, hs⟩)
    · omega
    · exact absurd hs (lt_asymm h4)
  · have hs : a.2 = b.2 := le_antisymm (not_lt.mp h3) (not_lt.mp h4)
    refine iff_of_false (by decide) ?_
    rintro (h | ⟨_, hs'⟩)
    · omega
    · rw [hs] at hs'
      exact absurd hs' (lt_irrefl _)

lemma cmpI_trans_neg {a b c : Ident σ}
    (hab : compareIdents a b = -1) (hbc : compareIdents b c = -1) :
    compareIdents a c = -1 := by
  rw [cmpI_neg_iff] at hab hbc ⊢
  rcases hab with h1 | ⟨h1, h1'⟩ <;> rcases hbc with h2 | ⟨h2, h2'⟩
  · exact Or.inl (lt_trans h1 h2)
  · exact Or.inl (h2 ▸ h1)
  · exact Or.inl (h1 ▸ h2)
  · exact Or.inr ⟨h1.trans h2, lt_trans h1' h2'⟩

lemma cmpP_cases (p q : Position σ) :
    comparePositions p q = -1 ∨ comparePositions p q = 0 ∨
      comparePositions p q = 1 := by
  induction p generalizing q with
  | nil => cases q <;> simp [comparePositions]
  | cons a as ih =>
    cases q with
    | nil => simp [comparePositions]
    | cons b bs =>
      rw [comparePositions]
      split_ifs <;> simp [ih bs]

lemma cmpP_eq_zero_iff (p q : Position σ) :
    comparePositions p q = 0 ↔ p = q := by
  induction p generalizing q with
  | nil => cases q <;> simp [comparePositions]
  | cons a as ih =>
    cases q with
    | nil => simp [comparePositions]
    | cons b bs =>
      rw [comparePositions]
      split_ifs with h1 h2
      · simp only [show (1 : Int) ≠ 0 by decide, false_iff]
        intro h
        rw [List.cons.injEq] at h
        have := (cmpI_eq_zero_iff a b).mpr h.1
        omega
      · simp only [show (-1 : Int) ≠ 0 by decide, false_iff]
        intro h
        rw [List.cons.injEq] at h
        have := (cmpI_eq_zero_iff a b).mpr h.1
        omega
      · have hab : a = b := by
          rcases cmpI_cases a b with h | h | h
          · exact absurd h h2
          · exact (cmpI_eq_zero_iff a b).mp h
          · exact absurd h h1
        subst hab
        simp [ih bs]

lemma cmpP_swap (p q : Position σ) :
    comparePositions q p = -comparePositions p q := by
  induction p generalizing q with
  | nil => cases q <;> simp [comparePositions]
  | cons a as ih =>
    cases q with
    | nil => simp [comparePositions]
    | cons b bs =>
      rw [comparePositions, comparePositions]
      rcases cmpI_cases a b with h | h | h
      · have hba : compareIdents b a = 1 := by
          rw [cmpI_pos_iff]
          rw [cmpI_neg_iff] at h
          rcases h with h | ⟨h, h'⟩
          · exact Or.inl h
          · exact Or.inr ⟨h, h'⟩
        rw [h, hba]
        norm_num
      · have hab : a = b := (cmpI_eq_zero_iff a b).mp h
        subst hab
        rw [h]
        norm_num [ih bs]
      · have hba : compareIdents b a = -1 := by
          rw [cmpI_neg_iff]
          rw [cmpI_pos_iff] at h
          rcases h with h | ⟨h, h'⟩
          · exact Or.inl h
          · exact Or.inr ⟨h, h'⟩
        rw [h, hba]
        norm_num

lemma cmpP_trans_neg {p q r : Position σ}
    (hpq : comparePositions p q = -1) (hqr : comparePositions q r = -1) :
    comparePositions p r = -1 := by
  induction p generalizing q r with
  | nil =>
    cases r with
    | nil =>
      cases q with
      | nil => exact hpq
      | cons b bs => exact absurd hqr (by rw [comparePositions]; decide)
    | cons c cs => rfl
  | cons a as ih =>
    cases q with
    | nil => exact absurd hpq (by rw [comparePositions]; decide)
    | cons b bs =>
      cases r with
      | nil => exact absurd hqr (by rw [comparePositions]; decide)
      | cons c cs =>
        rw [comparePositions] at hpq hqr ⊢
        rcases cmpI_cases a b with hab | hab | hab
        · rcases cmpI_cases b c with hbc | hbc | hbc
          · have hac : compareIdents a c = -1 := cmpI_trans_neg hab hbc
            rw [hac]
            norm_num
          · have hbceq : b = c := (cmpI_eq_zero_iff b c).mp hbc
            subst hbceq
            rw [hab]
            norm_num
          · rw [hbc] at hqr
            norm_num at hqr
        · have habeq : a = b := (cmpI_eq_zero_iff a b).mp hab
          subst habeq
          rw [hab] at hpq
          norm_num at hpq
          rcases cmpI_cases a c with hac | hac | hac
          · rw [hac]
            norm_num
          · have haceq : a = c := (cmpI_eq_zero_iff a c).mp hac
            subst haceq
            rw [hac] at hqr ⊢
            norm_num at hqr ⊢
            exact ih hpq hqr
          · rw [hac] at hqr
            norm_num at hqr
        · rw [hab] at hpq
          norm_num at hpq

end CompareLemmas

/-- Every draw `r ∈ [0, 1)` of `Math.random()` makes `randomIntBetween`
return a value strictly between its bounds, whenever there is room. -/
lemma randomIntBetween_between (r : ℚ) (lo hi : Int) (h0 : 0 ≤ r) (h1 : r < 1)
    (hd : lo + 1 < hi) :
    lo < randomIntBetween r lo hi ∧ randomIntBetween r lo hi < hi := by
  unfold randomIntBetween
  have hdpos : (0 : ℚ) < (hi : ℚ) - ((lo : ℚ) + 1) := by
    have : ((lo : ℚ) + 1) < (hi : ℚ) := by exact_mod_cast hd
    linarith
  constructor
  · have hnn : (0 : Int) ≤ ⌊r * ((hi : ℚ) - ((lo : ℚ) + 1))⌋ :=
      Int.floor_nonneg.mpr (mul_nonneg h0 hdpos.le)
    omega
  · have hlt : r * ((hi : ℚ) - ((lo : ℚ) + 1)) < (hi : ℚ) - ((lo : ℚ) + 1) := by
      nlinarith
    have hfl : ⌊r * ((hi : ℚ) - ((lo : ℚ) + 1))⌋ < hi - (lo + 1) := by
      rw [Int.floor_lt]
      push_cast
      linarith
    omega

/-- Consequently every fixed draw of `Math.random()` in `[0, 1)` yields a
valid random generator. -/
lemma validRnd_randomIntBetween (r : ℚ) (h0 : 0 ≤ r) (h1 : r < 1) :
    validRnd (fun lo hi => randomIntBetween r lo hi) :=
  fun lo hi hd => randomIntBetween_between r lo hi h0 h1 hd

lemma getD_false_eq_true_iff (o : Option Bool) :
    (o.getD false = true) ↔ o = some true := by
  cases o <;> simp

lemma map_isSome_and_error_iff (o : Option (Except GenErr (Position Int)))
    (g : Position Int → Position Int) (ob : Option Bool)
    (hs : o.isSome = true)
    (hiff : (o = some (Except.error GenErr.orderInversion)) ↔ ob = some true) :
    ((o.map (Except.map g)).isSome = true) ∧
      ((o.map (Except.map g) = some (Except.error GenErr.orderInversion)) ↔
        ob = some true) := by
  rcases o with _ | e
  · simp at hs
  · rcases e with err | v
    · cases err
      exact ⟨by simp, by simpa [Except.map] using hiff⟩
    · refine ⟨by simp, ?_, fun h => absurd (hiff.mpr h) (by simp)⟩
      intro h
      simp [Except.map] at h

lemma map_eq_ok {o : Option (Except GenErr (Position Int))} {h : Ident Int}
    {g : Position Int}
    (heq : o.map (Except.map fun rest => h :: rest) = some (Except.ok g)) :
    ∃ v, o = some (Except.ok v) ∧ g = h :: v := by
  rcases o with _ | e
  · simp at heq
  · rcases e with err | v
    · simp [Except.map] at heq
    · simp [Except.map] at heq
      exact ⟨v, rfl, heq.symm⟩

section InsertLemmas

variable {σ α : Type} [LinearOrder σ]

/-- In a strictly sorted chain, the head's position is below the position of
every later element. -/
lemma chain_head_lt_mem {a w : Atom σ α} {l : List (Atom σ α)}
    (hc : List.Chain'
      (fun x y : Atom σ α => comparePositions x.1.1 y.1.1 = -1) (a :: l))
    (hw : w ∈ l) :
    comparePositions a.1.1 w.1.1 = -1 := by
  induction l generalizing a with
  | nil => cases hw
  | cons b t ih =>
    have hab : comparePositions a.1.1 b.1.1 = -1 := (List.chain'_cons.mp hc).1
    have hc' := (List.chain'_cons.mp hc).2
    rcases List.mem_cons.mp hw with hwb | hwt
    · subst hwb
      exact hab
    · exact cmpP_trans_neg hab (ih hc' hwt)

/-- If the new atom's position is above the first element's and below the
last element's, the scan resolves with a successful result before reaching
the end of the list. -/
lemma insertLoop_found (f : Sequence σ α → Nat → Atom σ α → Sequence σ α)
    (seqFull : Sequence σ α) (atom : Atom σ α) :
    ∀ (mid : List (Atom σ α)) (prev lastA : Atom σ α) (i : Nat),
      comparePositions atom.1.1 prev.1.1 = 1 →
      comparePositions atom.1.1 lastA.1.1 = -1 →
      ∃ res, insertLoop f seqFull atom (prev :: (mid ++ [lastA])) i =
        Except.ok res := by
  intro mid
  induction mid with
  | nil =>
    intro prev lastA i h1 h2
    exact ⟨f seqFull (i + 1) atom, by simp [insertLoop, h1, h2]⟩
  | cons b mid' ih =>
    intro prev lastA i h1 h2
    rcases cmpP_cases atom.1.1 b.1.1 with hb | hb | hb
    · exact ⟨f seqFull (i + 1) atom, by simp [insertLoop, h1, hb]⟩
    · exact ⟨seqFull, by simp [insertLoop, h1, hb]⟩
    · obtain ⟨res, hres⟩ := ih b lastA (i + 1) hb h2
      refine ⟨res, ?_⟩
      rw [show prev :: ((b :: mid') ++ [lastA]) =
        prev :: b :: (mid' ++ [lastA]) by simp]
      rw [insertLoop]
      simp only [h1, hb]
      norm_num
      exact hres

/-- If an atom with the same position as some element is inserted into a
strictly sorted list whose head position is at or below the new atom's, the
scan returns the full original sequence. -/
lemma insertLoop_dup (f : Sequence σ α → Nat → Atom σ α → Sequence σ α)
    (seqFull : Sequence σ α) (atom : Atom σ α) :
    ∀ (mid : List (Atom σ α)) (prev lastA : Atom σ α) (i : Nat),
      List.Chain' (fun x y : Atom σ α => comparePositions x.1.1 y.1.1 = -1)
        (prev :: (mid ++ [lastA])) →
      (comparePositions atom.1.1 prev.1.1 = 0 ∨
        comparePositions atom.1.1 prev.1.1 = 1) →
      (∃ b ∈ prev :: (mid ++ [lastA]), comparePositions atom.1.1 b.1.1 = 0) →
      insertLoop f seqFull atom (prev :: (mid ++ [lastA])) i =
        Except.ok seqFull := by
  intro mid
  induction mid with
  | nil =>
    intro prev lastA i _ hHead hWit
    rcases hHead with h0 | h0
    · simp [insertLoop, h0]
    · obtain ⟨w, hwmem, hw0⟩ := hWit
      rcases List.mem_cons.mp hwmem with hwp | hwl
      · subst hwp
        omega
      · have hwlast : w = lastA := by simpa using hwl
        subst hwlast
        simp [insertLoop, h0, hw0]
  | cons b mid' ih =>
    intro prev lastA i hc hHead hWit
    rcases hHead with h0 | h0
    · simp [insertLoop, h0]
    · have hlist : prev :: ((b :: mid') ++ [lastA]) =
        prev :: b :: (mid' ++ [lastA]) := by simp
      rw [hlist] at hc hWit ⊢
      have hWit' : ∃ w ∈ b :: (mid' ++ [lastA]),
          comparePositions atom.1.1 w.1.1 = 0 := by
        obtain ⟨w, hwmem, hw0⟩ := hWit
        rcases List.mem_cons.mp hwmem with hwp | hwl
        · subst hwp
          omega
        · exact ⟨w, hwl, hw0⟩
      rcases cmpP_cases atom.1.1 b.1.1 with hb | hb | hb
      · exfalso
        obtain ⟨w, hwmem, hw0⟩ := hWit'
        rcases List.mem_cons.mp hwmem with hwb | hwl
        · subst hwb
          omega
        · have hbw : comparePositions b.1.1 w.1.1 = -1 :=
            chain_head_lt_mem (List.chain'_cons.mp hc).2 hwl
          have hweq : atom.1.1 = w.1.1 := (cmpP_eq_zero_iff _ _).mp hw0
          rw [← hweq] at hbw
          have := cmpP_swap atom.1.1 b.1.1
          omega
      · simp [insertLoop, h0, hb]
      · rw [insertLoop]
        simp only [h0, hb]
        norm_num
        exact ih b lastA (i + 1) (List.chain'_cons.mp hc).2 (Or.inr hb) hWit'

/-- Every successful result of the scan is either the untouched full
sequence or whatever the placement function produced. -/
lemma insertLoop_frame (f : Sequence σ α → Nat → Atom σ α → Sequence σ α)
    (seqFull : Sequence σ α) (atom : Atom σ α) :
    ∀ (l : List (Atom σ α)) (i : Nat) (res : Sequence σ α),
      insertLoop f seqFull atom l i = Except.ok res →
      res = seqFull ∨ ∃ j, res = f seqFull j atom := by
  intro l
  induction l with
  | nil =>
    intro i res h
    simp [insertLoop] at h
  | cons a t ih =>
    intro i res h
    cases t with
    | nil => simp [insertLoop] at h
    | cons b t' =>
      rw [insertLoop] at h
      split_ifs at h with hb1 hb2 hb3
      · right
        refine ⟨i + 1, ?_⟩
        injection h with h'
        exact h'.symm
      · exact ih (i + 1) res h
      · left
        injection h with h'
        exact h'.symm

end InsertLemmas

section GenLemmas

/-- With fuel exceeding the combined input length, `genPositionFuel` reaches
a base case (never runs out of fuel), and it reports an order inversion
exactly when the spec's head-inversion condition holds — independently of
the random draw. -/
lemma genPositionFuel_spec (rnd : Int → Int → Int) (s : Int) :
    ∀ (fuel : Nat) (p n : Position Int), p.length + n.length < fuel →
      (genPositionFuel rnd s fuel p n).isSome = true ∧
      ((genPositionFuel rnd s fuel p n =
          some (Except.error GenErr.orderInversion)) ↔
        specOrderInversionFuel s fuel p n = some true) := by
  intro fuel
  induction fuel with
  | zero => intro p n h; omega
  | succ fuel ih =>
    intro p n h
    simp only [genPositionFuel, specOrderInversionFuel]
    by_cases hc1 : compareIdents (p.headD (0, 0)) (n.headD (MAX_POS, 0)) = 1
    · rw [if_pos hc1, if_pos hc1]
      simp
    · rw [if_neg hc1, if_neg hc1]
      by_cases hc0 : compareIdents (p.headD (0, 0)) (n.headD (MAX_POS, 0)) = 0
      · rw [if_pos hc0, if_pos hc0]
        have hne : p ≠ [] ∨ n ≠ [] := by
          by_contra hcon
          push_neg at hcon
          rw [hcon.1, hcon.2] at hc0
          exact absurd hc0 (by decide)
        have hlen : p.tail.length + n.tail.length < fuel := by
          rcases p with _ | ⟨a, t⟩ <;> rcases n with _ | ⟨b, u⟩
          · simp at hne
          · simp at h ⊢; omega
          · simp at h ⊢; omega
          · simp at h ⊢; omega
        obtain ⟨ihs, ihiff⟩ := ih p.tail n.tail hlen
        exact map_isSome_and_error_iff _ _ _ ihs ihiff
      · rw [if_neg hc0, if_neg hc0]
        by_cases hd1 : (n.headD (MAX_POS, 0)).1 - (p.headD (0, 0)).1 > 1
        · rw [if_pos hd1, if_pos hd1]
          simp
        · rw [if_neg hd1, if_neg hd1]
          by_cases hd2 : (n.headD (MAX_POS, 0)).1 - (p.headD (0, 0)).1 = 1 ∧
              s > (p.headD (0, 0)).2
          · rw [if_pos hd2, if_pos hd2]
            simp
          · rw [if_neg hd2, if_neg hd2]
            have hne : p ≠ [] ∨ n ≠ [] := by
              by_contra hcon
              push_neg at hcon
              rw [hcon.1, hcon.2] at hd1
              simp [MAX_POS] at hd1
            have hlen : p.tail.length + n.tail.length < fuel := by
              rcases p with _ | ⟨a, t⟩ <;> rcases n with _ | ⟨b, u⟩
              · simp at hne
              · simp at h ⊢; omega
              · simp at h ⊢; omega
              · simp at h ⊢; omega
            obtain ⟨ihs, ihiff⟩ := ih p.tail n.tail hlen
            exact map_isSome_and_error_iff _ _ _ ihs ihiff

/-- Well-formedness of generated positions: with a valid random generator
and in-range inputs, every successfully generated position is non-empty, all
its ident integers stay in `[0, MAX_POS]`, and each ident is copied from an
input position, is the MIN default ident `(0, 0)` substituted for an
exhausted prev position, or carries `siteID` as its site. -/
lemma genPositionFuel_wf (rnd : Int → Int → Int) (s : Int)
    (hrnd : validRnd rnd) :
    ∀ (fuel : Nat) (p n : Position Int) (g : Position Int),
      p.length + n.length < fuel →
      (∀ id ∈ p, 0 ≤ id.1 ∧ id.1 ≤ MAX_POS) →
      (∀ id ∈ n, 0 ≤ id.1 ∧ id.1 ≤ MAX_POS) →
      genPositionFuel rnd s fuel p n = some (Except.ok g) →
      g ≠ [] ∧ ∀ id ∈ g, (0 ≤ id.1 ∧ id.1 ≤ MAX_POS) ∧
        (id ∈ p ∨ id ∈ n ∨ id = ((0 : Int), (0 : Int)) ∨ id.2 = s) := by
  intro fuel
  induction fuel with
  | zero => intro p n g h _ _ _; omega
  | succ fuel ih =>
    intro p n g h hp hn hgen
    simp only [genPositionFuel] at hgen
    by_cases hc1 : compareIdents (p.headD (0, 0)) (n.headD (MAX_POS, 0)) = 1
    · rw [if_pos hc1] at hgen
      simp at hgen
    · rw [if_neg hc1] at hgen
      by_cases hc0 : compareIdents (p.headD (0, 0)) (n.headD (MAX_POS, 0)) = 0
      · rw [if_pos hc0] at hgen
        obtain ⟨v, hv, hg⟩ := map_eq_ok hgen
        have hne : p ≠ [] ∨ n ≠ [] := by
          by_contra hcon
          push_neg at hcon
          rw [hcon.1, hcon.2] at hc0
          exact absurd hc0 (by decide)
        have hlen : p.tail.length + n.tail.length < fuel := by
          rcases p with _ | ⟨a, t⟩ <;> rcases n with _ | ⟨b, u⟩
          · simp at hne
          · simp at h ⊢; omega
          · simp at h ⊢; omega
          · simp at h ⊢; omega
        have hptail : ∀ id ∈ p.tail, 0 ≤ id.1 ∧ id.1 ≤ MAX_POS :=
          fun id hid => hp id (List.mem_of_mem_tail hid)
        have hntail : ∀ id ∈ n.tail, 0 ≤ id.1 ∧ id.1 ≤ MAX_POS :=
          fun id hid => hn id (List.mem_of_mem_tail hid)
        obtain ⟨hvne, hvprop⟩ := ih p.tail n.tail v hlen hptail hntail hv
        subst hg
        refine ⟨by simp, ?_⟩
        intro id hid
        rcases List.mem_cons.mp hid with hidh | hidv
        · subst hidh
          rcases p with _ | ⟨a, t⟩
          · exact ⟨by decide, Or.inr (Or.inr (Or.inl rfl))⟩
          · exact ⟨hp a (by simp), Or.inl (by simp)⟩
        · obtain ⟨hrange, hloc⟩ := hvprop id hidv
          refine ⟨hrange, ?_⟩
          rcases hloc with hl | hl | hl | hl
          · exact Or.inl (List.mem_of_mem_tail hl)
          · exact Or.inr (Or.inl (List.mem_of_mem_tail hl))
          · exact Or.inr (Or.inr (Or.inl hl))
          · exact Or.inr (Or.inr (Or.inr hl))
      · rw [if_neg hc0] at hgen
        have hplo : 0 ≤ (p.headD ((0 : Int), (0 : Int))).1 := by
          rcases p with _ | ⟨a, t⟩
          · decide
          · simpa using (hp a (by simp)).1
        have hphi : (p.headD ((0 : Int), (0 : Int))).1 ≤ MAX_POS := by
          rcases p with _ | ⟨a, t⟩
          · decide
          · simpa using (hp a (by simp)).2
        have hnhi : (n.headD ((MAX_POS : Int), (0 : Int))).1 ≤ MAX_POS := by
          rcases n with _ | ⟨b, u⟩
          · simp
          · simpa using (hn b (by simp)).2
        by_cases hd1 : (n.headD (MAX_POS, 0)).1 - (p.headD (0, 0)).1 > 1
        · rw [if_pos hd1] at hgen
          simp only [Option.some.injEq] at hgen
          injection hgen with hgen'
          obtain ⟨hb1, hb2⟩ :=
            hrnd (p.headD (0, 0)).1 (n.headD (MAX_POS, 0)).1 (by omega)
          have hrange : 0 ≤ rnd (p.headD (0, 0)).1 (n.headD (MAX_POS, 0)).1 ∧
              rnd (p.headD (0, 0)).1 (n.headD (MAX_POS, 0)).1 ≤ MAX_POS :=
            ⟨by omega, by omega⟩
          rw [← hgen']
          refine ⟨by simp, ?_⟩
          intro id hid
          simp only [List.mem_singleton] at hid
          subst hid
          exact ⟨hrange, Or.inr (Or.inr (Or.inr rfl))⟩
        · rw [if_neg hd1] at hgen
          by_cases hd2 : (n.headD (MAX_POS, 0)).1 - (p.headD (0, 0)).1 = 1 ∧
              s > (p.headD (0, 0)).2
          · rw [if_pos hd2] at hgen
            simp only [Option.some.injEq] at hgen
            injection hgen with hgen'
            rw [← hgen']
            refine ⟨by simp, ?_⟩
            intro id hid
            simp only [List.mem_singleton] at hid
            subst hid
            exact ⟨⟨hplo, hphi⟩, Or.inr (Or.inr (Or.inr rfl))⟩
          · rw [if_neg hd2] at hgen
            obtain ⟨v, hv, hg⟩ := map_eq_ok hgen
            have hne : p ≠ [] ∨ n ≠ [] := by
              by_contra hcon
              push_neg at hcon
              rw [hcon.1, hcon.2] at hd1
              simp [MAX_POS] at hd1
            have hlen : p.tail.length + n.tail.length < fuel := by
              rcases p with _ | ⟨a, t⟩ <;> rcases n with _ | ⟨b, u⟩
              · simp at hne
              · simp at h ⊢; omega
              · simp at h ⊢; omega
              · simp at h ⊢; omega
            have hptail : ∀ id ∈ p.tail, 0 ≤ id.1 ∧ id.1 ≤ MAX_POS :=
              fun id hid => hp id (List.mem_of_mem_tail hid)
            have hntail : ∀ id ∈ n.tail, 0 ≤ id.1 ∧ id.1 ≤ MAX_POS :=
              fun id hid => hn id (List.mem_of_mem_tail hid)
            obtain ⟨hvne, hvprop⟩ := ih p.tail n.tail v hlen hptail hntail hv
            subst hg
            refine ⟨by simp, ?_⟩
            intro id hid
            rcases List.mem_cons.mp hid with hidh | hidv
            · subst hidh
              rcases p with _ | ⟨a, t⟩
              · exact ⟨by decide, Or.inr (Or.inr (Or.inl rfl))⟩
              · exact ⟨hp a (by simp), Or.inl (by simp)⟩
            · obtain ⟨hrange, hloc⟩ := hvprop id hidv
              refine ⟨hrange, ?_⟩
              rcases hloc with hl | hl | hl | hl
              · exact Or.inl (List.mem_of_mem_tail hl)
              · exact Or.inr (Or.inl (List.mem_of_mem_tail hl))
              · exact Or.inr (Or.inr (Or.inl hl))
              · exact Or.inr (Or.inr (Or.inr hl))

end GenLemmas

/-- The empty sequence is well-formed. -/
lemma wellFormed_emptySequence (α : Type) : wellFormed (emptySequence α) := by
  refine ⟨⟨[], rfl⟩, List.chain'_cons.mpr ⟨?_, List.chain'_singleton _⟩⟩
  show comparePositions [((0 : Int), (0 : Int))] [((32767 : Int), (0 : Int))] = -1
  decide

/-- C8: `emptySequence()` returns exactly the two-atom sequence
`[[[[[0,0]],0], null], [[[[32767,0]],1], null]]`: MIN sentinel with position
`[[0,0]]`, clock 0, value null, then MAX sentinel with position `[[32767,0]]`,
clock 1, value null. -/
theorem emptySequence_exact (α : Type) :
    emptySequence α =
      [(([((0 : Int), (0 : Int))], (0 : Int)), (none : Option α)),
       (([((32767 : Int), (0 : Int))], (1 : Int)), (none : Option α))] := rfl

/-- C7: `compareAtomIdents` is transitive: for atom identifiers over any
totally ordered site type, `a <= b` and `b <= c` (comparison at most 0)
imply `a <= c`. -/
theorem compareAtomIdents_trans {σ : Type} [LinearOrder σ]
    (a b c : AtomIdent σ) (hab : compareAtomIdents a b ≤ 0)
    (hbc : compareAtomIdents b c ≤ 0) : compareAtomIdents a c ≤ 0 := by
  unfold compareAtomIdents at hab hbc ⊢
  rcases cmpP_cases a.1 b.1 with h1 | h1 | h1
  · rcases cmpP_cases b.1 c.1 with h2 | h2 | h2
    · rw [cmpP_trans_neg h1 h2]
      omega
    · have hbceq : b.1 = c.1 := (cmpP_eq_zero_iff _ _).mp h2
      rw [← hbceq]
      omega
    · rw [h2] at hbc
      omega
  · have habeq : a.1 = b.1 := (cmpP_eq_zero_iff _ _).mp h1
    rw [habeq]
    exact hbc
  · rw [h1] at hab
    omega

/-- C7 witness: instantiating transitivity at concrete integer-site atom
identifiers. -/
theorem compareAtomIdents_trans_witness :
    compareAtomIdents (([((1 : Int), (1 : Int))], (0 : Int)) : AtomIdent Int)
      ([((3 : Int), (1 : Int))], 0) ≤ 0 :=
  compareAtomIdents_trans ([((1 : Int), (1 : Int))], 0)
    ([((2 : Int), (1 : Int))], 0) ([((3 : Int), (1 : Int))], 0)
    (by decide) (by decide)

/-- C3: `genPosition` terminates on every input: run with fuel bounded by
the combined length of the two input positions, the recursion always reaches
a base case (fresh allocation, tiebreak, or the error branch) — for every
random generator, site ID, and positions, including invalid ones. -/
theorem genPosition_terminates (rnd : Int → Int → Int) (siteID : Int)
    (prevPos nextPos : Position Int) :
    (genPosition rnd siteID prevPos nextPos).isSome = true :=
  (genPositionFuel_spec rnd siteID _ prevPos nextPos (by omega)).1

/-- C2 counterexample: with `prevPos = nextPos = [[5,0]]` the positions
compare equal — so `prevPos >= nextPos` — yet `genPosition` does not raise
OrderInversion: it returns the extended position `[[5,0],[1,7]]` (under the
draw that picks `lo + 1`), contradicting the claim that it always raises
OrderInversion when `prevPos >= nextPos`. -/
theorem genPosition_no_error_on_equal_positions :
    comparePositions [((5 : Int), (0 : Int))] [((5 : Int), (0 : Int))] = 0 ∧
    genPosition rnd0 7 [((5 : Int), (0 : Int))] [((5 : Int), (0 : Int))] =
      some (Except.ok [((5 : Int), (0 : Int)), ((1 : Int), (7 : Int))]) :=
  ⟨by decide, rfl⟩

/-- C2 (amended): `genPosition` fails with OrderInversion — for every random
draw — exactly when the spec §7 head-inversion condition holds: the
recursion (with per-level empty defaulting) reaches a level whose prev head
ident compares greater than its next head ident. This is not equivalent to
`prevPos >= nextPos`: it can fail with `prevPos < nextPos` and succeed with
`prevPos = nextPos`. -/
theorem genPosition_error_iff_specOrderInversion (rnd : Int → Int → Int)
    (siteID : Int) (prevPos nextPos : Position Int) :
    genPosition rnd siteID prevPos nextPos =
      some (Except.error GenErr.orderInversion) ↔
    specOrderInversion siteID prevPos nextPos = true := by
  unfold genPosition specOrderInversion
  rw [getD_false_eq_true_iff]
  exact (genPositionFuel_spec rnd siteID _ prevPos nextPos (by omega)).2

/-- C1: evaluating the code at the failing input. The neighbor atom
identifiers `[[[1,5],[9,5]],0]` and `[[[2,6],[3,6]],0]` are strictly ordered
(`compareAtomIdents = -1`), yet `genAtomIdent` for site 1 throws
OrderInversion for every random draw instead of returning an identifier
strictly between them: at depth 0 it has `diff = 1` without a site tiebreak
and recurses into both tails `[9,5]` vs `[3,6]`, whose heads are inverted. -/
theorem genAtomIdent_error_despite_ordered_neighbors :
    compareAtomIdents
      (([((1 : Int), (5 : Int)), ((9 : Int), (5 : Int))], (0 : Int)) :
        AtomIdent Int)
      ([((2 : Int), (6 : Int)), ((3 : Int), (6 : Int))], 0) = -1 ∧
    ∀ rnd : Int → Int → Int,
      genAtomIdent rnd 1 7 ([((1 : Int), (5 : Int)), ((9 : Int), (5 : Int))], 0)
        ([((2 : Int), (6 : Int)), ((3 : Int), (6 : Int))], 0) =
        some (Except.error GenErr.orderInversion) :=
  ⟨by decide, fun _ => rfl⟩

/-- C10 counterexample: with in-range inputs `prevPos = []`,
`nextPos = [[0,3]]` and site 7, `genPosition` returns `[[0,0],[1,7]]` (under
the draw that picks `lo + 1`): its ident `[0,0]` is not copied from either
input position and its site is not the generating site, contradicting the
claim. -/
theorem genPosition_default_ident_escapes :
    genPosition rnd0 7 [] [((0 : Int), (3 : Int))] =
      some (Except.ok [((0 : Int), (0 : Int)), ((1 : Int), (7 : Int))]) ∧
    ((0 : Int), (0 : Int)) ∉ ([] : Position Int) ∧
    ((0 : Int), (0 : Int)) ∉ ([((0 : Int), (3 : Int))] : Position Int) ∧
    ((0 : Int), (0 : Int)).2 ≠ (7 : Int) :=
  ⟨rfl, by decide, by decide, by decide⟩

/-- C10 (amended): for every valid random generator and in-range input
positions, a successfully generated position is non-empty, all its ident
integers lie in `[0, MAX_POS]`, and each of its idents is copied from an
input position, is the MIN default ident `(0,0)` substituted for an
exhausted prev position, or has the generating site as its site component. -/
theorem genPosition_preserves_wellformed (rnd : Int → Int → Int)
    (hrnd : validRnd rnd) (siteID : Int) (p n g : Position Int)
    (hp : ∀ id ∈ p, 0 ≤ id.1 ∧ id.1 ≤ MAX_POS)
    (hn : ∀ id ∈ n, 0 ≤ id.1 ∧ id.1 ≤ MAX_POS)
    (hgen : genPosition rnd siteID p n = some (Except.ok g)) :
    g ≠ [] ∧ ∀ id ∈ g, (0 ≤ id.1 ∧ id.1 ≤ MAX_POS) ∧
      (id ∈ p ∨ id ∈ n ∨ id = ((0 : Int), (0 : Int)) ∨ id.2 = siteID) :=
  genPositionFuel_wf rnd siteID hrnd _ p n g (by omega) hp hn hgen

/-- C10 witness: the amended theorem instantiated between the MIN and MAX
sentinel positions at site 1, where the generated position is `[[1,1]]`. -/
theorem genPosition_preserves_wellformed_witness :
    ([((1 : Int), (1 : Int))] : Position Int) ≠ [] ∧
    ((0 : Int) ≤ ((1 : Int), (1 : Int)).1 ∧
      ((1 : Int), (1 : Int)).1 ≤ MAX_POS) ∧
    (((1 : Int), (1 : Int)) ∈ ([((0 : Int), (0 : Int))] : Position Int) ∨
      ((1 : Int), (1 : Int)) ∈ ([((32767 : Int), (0 : Int))] : Position Int) ∨
      ((1 : Int), (1 : Int)) = ((0 : Int), (0 : Int)) ∨
      ((1 : Int), (1 : Int)).2 = (1 : Int)) := by
  have hv : validRnd rnd0 := fun lo hi h => ⟨lt_add_one lo, h⟩
  have h := genPosition_preserves_wellformed rnd0 hv 1
    [((0 : Int), (0 : Int))] [((32767 : Int), (0 : Int))]
    [((1 : Int), (1 : Int))] (by decide) (by decide) rfl
  exact ⟨h.1, h.2 ((1 : Int), (1 : Int)) (by simp)⟩

/-- C5 counterexample: the new atom's position `[[1,0]]` compares less than
the current prev's position `[[5,0]]`, but because it compares equal to
next's position, `insertAtom` returns the original sequence instead of
failing with OutOfOrder — contradicting "for any result of the comparison
against next". -/
theorem insertAtom_lt_prev_equal_next_no_error :
    comparePositions [((1 : Int), (0 : Int))] [((5 : Int), (0 : Int))] = -1 ∧
    insertAtom [(([((5 : Int), (0 : Int))], (0 : Int)), (none : Option Unit)),
        (([((1 : Int), (0 : Int))], (1 : Int)), none)]
      (([((1 : Int), (0 : Int))], (2 : Int)), some ()) f0 =
      Except.ok [(([((5 : Int), (0 : Int))], (0 : Int)), none),
        (([((1 : Int), (0 : Int))], (1 : Int)), none)] :=
  ⟨by decide, rfl⟩

/-- C5 (amended): when the new atom's position compares less than the
current prev's, `insertAtom` fails with OutOfOrder whenever the comparison
against next is nonzero; when the new atom's position equals next's, it
returns the original sequence (duplicate no-op). -/
theorem insertAtom_lt_prev_dichotomy {σ α : Type} [LinearOrder σ]
    (prev next : Atom σ α) (rest : List (Atom σ α)) (atom : Atom σ α)
    (f : Sequence σ α → Nat → Atom σ α → Sequence σ α)
    (hprev : comparePositions atom.1.1 prev.1.1 = -1) :
    (comparePositions atom.1.1 next.1.1 ≠ 0 →
      insertAtom (prev :: next :: rest) atom f =
        Except.error InsertErr.outOfOrder) ∧
    (comparePositions atom.1.1 next.1.1 = 0 →
      insertAtom (prev :: next :: rest) atom f =
        Except.ok (prev :: next :: rest)) := by
  constructor
  · intro hne
    rcases cmpP_cases atom.1.1 next.1.1 with h | h | h
    · unfold insertAtom
      rw [insertLoop]
      norm_num [hprev, h]
    · exact absurd h hne
    · unfold insertAtom
      rw [insertLoop]
      norm_num [hprev, h]
  · intro h0
    unfold insertAtom
    rw [insertLoop]
    norm_num [hprev, h0]

/-- C5 witness: the amended theorem at a concrete out-of-order input, where
the comparison against next is nonzero and OutOfOrder is raised. -/
theorem insertAtom_lt_prev_dichotomy_witness :
    insertAtom [(([((5 : Int), (0 : Int))], (0 : Int)), (none : Option Unit)),
        (([((9 : Int), (0 : Int))], (0 : Int)), none)]
      (([((1 : Int), (0 : Int))], (0 : Int)), none) f0 =
      Except.error InsertErr.outOfOrder :=
  (insertAtom_lt_prev_dichotomy _ _ [] _ f0 (by decide)).1 (by decide)

/-- C4: duplicate insertion is a no-op: for a well-formed sequence and an
atom whose position equals the position of some atom already in the
sequence, `insertAtom` returns the original sequence for every placement
function — regardless of value payload or clock differences. -/
theorem insertAtom_duplicate_noop {α : Type} (seq : Sequence Int α)
    (atom : Atom Int α) (hwf : wellFormed seq)
    (hdup : ∃ b ∈ seq, comparePositions atom.1.1 b.1.1 = 0) :
    ∀ f, insertAtom seq atom f = Except.ok seq := by
  intro f
  obtain ⟨⟨mid, hshape⟩, hchain⟩ := hwf
  subst hshape
  have hHead :
      comparePositions atom.1.1
        ((ABS_MIN_ATOM_IDENT, none) : Atom Int α).1.1 = 0 ∨
      comparePositions atom.1.1
        ((ABS_MIN_ATOM_IDENT, none) : Atom Int α).1.1 = 1 := by
    obtain ⟨w, hwmem, hw0⟩ := hdup
    rcases List.mem_cons.mp hwmem with hw | hw
    · left
      rw [← hw]
      exact hw0
    · right
      have hlt : comparePositions
          ((ABS_MIN_ATOM_IDENT, none) : Atom Int α).1.1 w.1.1 = -1 :=
        chain_head_lt_mem hchain hw
      have hweq : atom.1.1 = w.1.1 := (cmpP_eq_zero_iff _ _).mp hw0
      rw [← hweq] at hlt
      have hsw := cmpP_swap
        ((ABS_MIN_ATOM_IDENT, none) : Atom Int α).1.1 atom.1.1
      rw [hlt] at hsw
      rw [hsw]
      decide
  exact insertLoop_dup f _ atom mid _ _ 0 hchain hHead hdup

/-- C4 witness: inserting an atom with the MIN sentinel's position but a
different clock and value into the empty sequence returns it unchanged. -/
theorem insertAtom_duplicate_noop_witness :
    insertAtom (emptySequence Unit)
      (([((0 : Int), (0 : Int))], (5 : Int)), some ()) f0 =
      Except.ok (emptySequence Unit) :=
  insertAtom_duplicate_noop (emptySequence Unit)
    (([((0 : Int), (0 : Int))], (5 : Int)), some ())
    (wellFormed_emptySequence Unit) (by decide) f0

/-- C6: for a well-formed sequence and an atom whose position is strictly
between the MIN and MAX sentinel positions, the scan resolves at some
adjacent pair before the last element: it never reads `sequence[i+1]` past
the end of the list (`nextUndefined`) and never exhausts the loop
(`noReturn`). -/
theorem insertAtom_resolves_before_end {α : Type} (seq : Sequence Int α)
    (atom : Atom Int α) (hwf : wellFormed seq)
    (hmin : comparePositions atom.1.1 ABS_MIN_ATOM_IDENT.1 = 1)
    (hmax : comparePositions atom.1.1 ABS_MAX_ATOM_IDENT.1 = -1) :
    ∀ f, insertAtom seq atom f ≠ Except.error InsertErr.nextUndefined ∧
      insertAtom seq atom f ≠ Except.error InsertErr.noReturn := by
  intro f
  obtain ⟨⟨mid, hshape⟩, _⟩ := hwf
  subst hshape
  obtain ⟨res, hres⟩ := insertLoop_found f
    (((ABS_MIN_ATOM_IDENT, none) : Atom Int α) ::
      (mid ++ [((ABS_MAX_ATOM_IDENT, none) : Atom Int α)]))
    atom mid ((ABS_MIN_ATOM_IDENT, none) : Atom Int α)
    ((ABS_MAX_ATOM_IDENT, none) : Atom Int α) 0 hmin hmax
  unfold insertAtom
  rw [hres]
  constructor <;> simp

/-- C6 witness: inserting a strictly-between atom into the empty sequence
neither reads past the end nor exhausts the loop. -/
theorem insertAtom_resolves_before_end_witness :
    insertAtom (emptySequence Unit)
      (([((5 : Int), (1 : Int))], (0 : Int)), some ()) f0 ≠
      Except.error InsertErr.nextUndefined ∧
    insertAtom (emptySequence Unit)
      (([((5 : Int), (1 : Int))], (0 : Int)), some ()) f0 ≠
      Except.error InsertErr.noReturn :=
  insertAtom_resolves_before_end (emptySequence Unit)
    (([((5 : Int), (1 : Int))], (0 : Int)), some ())
    (wellFormed_emptySequence Unit) (by decide) (by decide) f0

/-- C9: `insertAtom` itself never changes the sequence: every successful
result is either the very input sequence (duplicate path) or exactly what
the caller-supplied placement function returned; error paths leave the
input untouched as `insertAtom` only reads it. -/
theorem insertAtom_frame {σ α : Type} [LinearOrder σ] (seq : Sequence σ α)
    (atom : Atom σ α) (f : Sequence σ α → Nat → Atom σ α → Sequence σ α)
    (res : Sequence σ α) (h : insertAtom seq atom f = Except.ok res) :
    res = seq ∨ ∃ i, res = f seq i atom :=
  insertLoop_frame f seq atom seq 0 res h

/-- C9 witness: the frame theorem at a duplicate insertion into the empty
sequence, whose successful result is the input itself. -/
theorem insertAtom_frame_witness :
    emptySequence Unit = emptySequence Unit ∨
      ∃ i, emptySequence Unit = f0 (emptySequence Unit) i
        (([((0 : Int), (0 : Int))], (5 : Int)), some ()) :=
  insertAtom_frame (emptySequence Unit)
    (([((0 : Int), (0 : Int))], (5 : Int)), some ()) f0
    (emptySequence Unit) rfl

end Logoot
